import Mathlib

/-!
Verification of the memory-placement stage of the triton kernel compiler
(alignment analysis, layout analysis, shared-memory copy insertion, and the
pipeline driver declared in include/triton/codegen/pass.h).

The repository ships the interfaces (`add_passes_to_emit_bin`, class `cts`
with `is_shmem_op`, `is_shmem_res`, `add_copy(parent, x, builder, to_shared,
copies)`, constructor `cts(layouts*, bool use_async = false)` and `run`);
the pass bodies are modelled here from the design document, faithful to its
words, and every definition below that embeds a missing body says so in its
doc comment.
-/

namespace Triton

/-- Layout descriptors: the closed vocabulary of the layout analysis
(distributed across lanes, resident in the shared scratchpad, or the
operand-specific matrix-multiply operand layout). -/
inductive Layout
  | distributed
  | shared
  | mma
  deriving DecidableEq, Repr

/-- Opcodes of the tensor IR fragment relevant to memory placement. -/
inductive Opcode
  | add
  | mul
  | reshape
  | broadcast
  | range
  | load
  | store
  | dot
  | phi
  | other
  | cpyToShared (async : Bool)
  | cpyFromShared
  deriving DecidableEq, Repr

/-- `ir::instruction`: an opcode, an ordered operand list (value ids), a
phi flag, and — for phi nodes — the predecessor block id of each operand. -/
structure instruction where
  id : Nat
  opcode : Opcode
  ops : List Nat
  isPhi : Bool
  preds : List Nat
  deriving DecidableEq, Repr

/-- `ir::basic_block`: an id, an ordered instruction sequence, and the ids
of the successor blocks (the control-flow-graph edges out of the block). -/
structure basic_block where
  bid : Nat
  insts : List instruction
  succs : List Nat
  deriving DecidableEq, Repr

/-- `ir::module`: an ordered collection of basic blocks. -/
structure module where
  blocks : List basic_block
  deriving DecidableEq, Repr

def module.allInsts (m : module) : List instruction :=
  (m.blocks.map basic_block.insts).flatten

/-- The defining instruction of a value id, if the value is an instruction
result; leaf values (arguments, constants) have no defining instruction. -/
def defOf (m : module) (v : Nat) : Option instruction :=
  m.allInsts.find? (fun i => decide (i.id = v))

/-- An upper bound on every value id mentioned by the module; fresh copy
instructions receive ids strictly above it. -/
def maxId (m : module) : Nat :=
  m.allInsts.foldr (fun i acc => Nat.max (Nat.max i.id (i.ops.foldr Nat.max 0)) acc) 0

/-- Every value id mentioned by the module (instruction results and
operands), deduplicated. -/
def valueIds (m : module) : List Nat :=
  (m.allInsts.map instruction.id ++ (m.allInsts.map instruction.ops).flatten).dedup

/-! ### Alignment analysis (`analysis::align`) -/

/-- A per-value alignment fact: maximal provable alignment and contiguity
divisor.  The conservative default (no guarantee) is `⟨1, 1⟩`. -/
structure AlignFact where
  alignment : Nat
  contig : Nat
  deriving DecidableEq, Repr

def defaultFact : AlignFact := ⟨1, 1⟩

def combineMin (a b : AlignFact) : AlignFact :=
  ⟨Nat.min a.alignment b.alignment, Nat.min a.contig b.contig⟩

/-- Modelled from the spec: the per-opcode alignment transfer rule of
`align::run` (body not in the supplied sources).  A binary sum combines two
known operand facts by taking minima and is unknown otherwise;
layout-preserving reshapes and broadcasts forward their operand's fact;
range generation yields the default known fact; everything else is
unknown. -/
def alignTransfer (op : Opcode) (args : List (Option AlignFact)) : Option AlignFact :=
  match op, args with
  | .add, [some a, some b] => some (combineMin a b)
  | .mul, [some a, some b] => some (combineMin a b)
  | .reshape, [some a] => some a
  | .broadcast, [some a] => some a
  | .range, [] => some ⟨1, 1⟩
  | _, _ => none

/-- One propagation round of the alignment fixpoint. -/
def alignStep (m : module) (f : Nat → Option AlignFact) : Nat → Option AlignFact :=
  fun v =>
    match defOf m v with
    | none => none
    | some i => alignTransfer i.opcode (i.ops.map f)

def alignFixAux (m : module) : Nat → (Nat → Option AlignFact)
  | 0 => fun _ => none
  | n + 1 => alignStep m (alignFixAux m n)

/-- Modelled from the spec: `align::run` computes, to a fixed point, the
alignment fact of every value by propagating known facts through the
module's def-use graph; iterating one round more than the number of
instructions reaches the fixpoint of this acyclic-or-saturating system. -/
def alignFix (m : module) : Nat → Option AlignFact :=
  alignFixAux m (m.allInsts.length + 1)

/-- `analysis::align`: the analysis object; `facts` is populated by `run`. -/
structure align where
  facts : Nat → Option AlignFact

def align.initial : align := ⟨fun _ => none⟩

/-- Modelled from the spec: `align::run(module)` recomputes the whole fact
table for the module; it never fails, and queries afterwards are pure
lookups. -/
def align.run (m : module) (_a : align) : align := ⟨alignFix m⟩

/-- The exposed per-value fact: a value with no derivable information
degrades to the conservative default instead of an error. -/
def align.factOf (a : align) (v : Nat) : AlignFact :=
  (a.facts v).getD defaultFact

/-! ### Layout analysis (`analysis::layouts`) -/

/-- Modelled from the spec: the opcodes whose producer/consumer edges are
layout-preserving (elementwise ops, reshape, broadcast, phi joins). -/
def layoutPreserving : Opcode → Bool
  | .add => true
  | .mul => true
  | .reshape => true
  | .broadcast => true
  | .phi => true
  | _ => false

/-- Whether instruction `i` puts a compatibility edge between values `u`
and `v` (it is layout-preserving and connects its result to an operand). -/
def edgeAt (i : instruction) (u v : Nat) : Bool :=
  layoutPreserving i.opcode &&
    ((decide (i.id = u) && i.ops.contains v) || (decide (i.id = v) && i.ops.contains u))

def adjacent (m : module) (u v : Nat) : Bool :=
  m.allInsts.any (fun i => edgeAt i u v)

def expandOnce (m : module) (s : List Nat) : List Nat :=
  (s ++ (valueIds m).filter (fun w => s.any (fun u => adjacent m u w))).dedup

def compAux (m : module) : Nat → List Nat → List Nat
  | 0, s => s
  | n + 1, s => compAux m n (expandOnce m s)

/-- Modelled from the spec: the layout group of `v` — the connected
component of the compatibility graph containing `v`. -/
def compOf (m : module) (v : Nat) : List Nat :=
  compAux m ((valueIds m).length + 1) [v]

/-- The group identifier: the least member of the group. -/
def groupIdOf (m : module) (v : Nat) : Nat :=
  (compOf m v).foldr Nat.min v

/-- Modelled from the spec: consumers that force the shared layout on an
operand (values stored into or loaded from the scratchpad). -/
def forcesShared (op : Opcode) (k : Nat) : Bool :=
  match op with
  | .store => decide (k = 0)
  | .load => decide (k = 0)
  | _ => false

/-- Modelled from the spec: consumers that force the operand-specific
matrix-multiply layout on an operand. -/
def forcesMma (op : Opcode) (k : Nat) : Bool :=
  match op with
  | .dot => decide (k = 0) || decide (k = 1)
  | _ => false

def demandsShared (m : module) (v : Nat) : Bool :=
  m.allInsts.any (fun i =>
    (List.range i.ops.length).any (fun k =>
      decide (i.ops.getD k 0 = v) && forcesShared i.opcode k))

def demandsMma (m : module) (v : Nat) : Bool :=
  m.allInsts.any (fun i =>
    (List.range i.ops.length).any (fun k =>
      decide (i.ops.getD k 0 = v) && forcesMma i.opcode k))

/-- Modelled from the spec: the resolved layout of a value's group — the
most restrictive demand among the group members' consumers, with the
shared layout winning conflicts and distributed as the default when no
consumer forces anything. -/
def resolveLayout (m : module) (v : Nat) : Layout :=
  let g := compOf m v
  if g.any (fun w => demandsShared m w) then Layout.shared
  else if g.any (fun w => demandsMma m w) then Layout.mma
  else Layout.distributed

/-- `analysis::layouts`: per-value resolved layout descriptor and group
identifier; both are pure lookups after `run`. -/
structure layouts where
  assign : Nat → Layout
  group : Nat → Nat

def layouts.initial : layouts := ⟨fun _ => Layout.distributed, fun v => v⟩

/-- Modelled from the spec: `layouts::run(module)` builds the compatibility
graph, forms the groups, and resolves one layout per group. -/
def layouts.run (m : module) (_l : layouts) : layouts :=
  ⟨resolveLayout m, groupIdOf m⟩

def layouts.layoutOf (l : layouts) (v : Nat) : Layout := l.assign v

/-! ### Copy-insertion transform (`transform::cts`) -/

/-- Modelled from the spec: `cts::is_shmem_op(i, op)` — whether operand
position `op` of an instruction must arrive in the shared layout (decided
per opcode and operand index: matrix-multiply inputs and the stored
scratchpad value). -/
def is_shmem_op (op : Opcode) (k : Nat) : Bool :=
  match op with
  | .dot => decide (k = 0) || decide (k = 1)
  | .store => decide (k = 0)
  | _ => false

/-- Modelled from the spec: `cts::is_shmem_res` — whether a value's
resolved layout is the shared layout. -/
def is_shmem_res (L : Nat → Layout) (v : Nat) : Bool :=
  decide (L v = Layout.shared)

/-- The dominance-valid insertion context of a consuming operand slot:
either straight-line inside a block (non-phi consumers) or the end of a
specific predecessor block (a phi-node's edge). -/
inductive CtsCtx
  | line (bid : Nat)
  | predEnd (bid : Nat)
  deriving DecidableEq, Repr

/-- Where an inserted copy is placed: immediately before a consuming
instruction, or appended at the end of a block. -/
inductive Anchor
  | before (instId : Nat)
  | blockEnd (bid : Nat)
  deriving DecidableEq, Repr

/-- A copy instruction inserted by the transform: fresh id, source value,
direction (`to_shared` when true), blocking kind, the insertion context it
serves, the consumer that triggered it, and its placement. -/
structure CopyInst where
  cid : Nat
  src : Nat
  toShared : Bool
  isAsync : Bool
  ctx : CtsCtx
  owner : Nat
  anchor : Anchor
  deriving DecidableEq, Repr

/-- The mutable state threaded through `cts::run`: the fresh-id counter,
the memo keyed by (defining value, direction, insertion context) mapping to
the materialized copy's id, and the copies inserted so far. -/
structure CtsState where
  next : Nat
  memo : List ((Nat × Bool × CtsCtx) × Nat)
  inserted : List CopyInst

def memoFind (ms : List ((Nat × Bool × CtsCtx) × Nat)) (key : Nat × Bool × CtsCtx) :
    Option Nat :=
  (ms.find? (fun e => decide (e.1 = key))).map Prod.snd

/-- Modelled from the spec: the conversion an operand slot needs, if any —
`some true` (`to_shared`) when the consumer requires shared and the
resolved layout is not shared, `some false` (`from_shared`) when the
resolved layout is shared but the consumer does not require it, and `none`
when the layouts already match. -/
def needDir (L : Nat → Layout) (op : Opcode) (k : Nat) (v : Nat) : Option Bool :=
  if is_shmem_op op k then
    (if L v = Layout.shared then none else some true)
  else
    (if L v = Layout.shared then some false else none)

/-- The insertion context of operand slot `k` of instruction `i` inside the
block with id `bid`. -/
def ctxOf (bid : Nat) (i : instruction) (k : Nat) : CtsCtx :=
  if i.isPhi then CtsCtx.predEnd (i.preds.getD k 0) else CtsCtx.line bid

/-- The placement a context dictates: straight-line copies go immediately
before the consuming instruction, phi-edge copies to the end of the
predecessor block. -/
def anchorOf (c : CtsCtx) (i : instruction) : Anchor :=
  match c with
  | CtsCtx.line _ => Anchor.before i.id
  | CtsCtx.predEnd p => Anchor.blockEnd p

/-- Modelled from the spec: `cts::add_copy` for one operand slot — return
the operand value unchanged when no conversion is needed, reuse the
memoized copy for (value, direction) in this insertion context when one
exists, and otherwise insert a fresh copy (asynchronous kind only for
`to_shared` copies when the flag is set) and memoize it. -/
def processOperand (L : Nat → Layout) (ua : Bool) (bid : Nat) (i : instruction)
    (k v : Nat) (s : CtsState) : Nat × CtsState :=
  match needDir L i.opcode k v with
  | none => (v, s)
  | some dir =>
    let c := ctxOf bid i k
    match memoFind s.memo (v, dir, c) with
    | some cid => (cid, s)
    | none =>
      (s.next,
       ⟨s.next + 1,
        ((v, dir, c), s.next) :: s.memo,
        s.inserted ++ [⟨s.next, v, dir, ua && dir, c, i.id, anchorOf c i⟩]⟩)

/-- Rewire the operand slots of instruction `i`, starting at slot `k`. -/
def rewireOps (L : Nat → Layout) (ua : Bool) (bid : Nat) (i : instruction) (k : Nat) :
    List Nat → CtsState → List Nat × CtsState
  | [], s => ([], s)
  | v :: rest, s =>
    let r := processOperand L ua bid i k v s
    let rr := rewireOps L ua bid i (k + 1) rest r.2
    (r.1 :: rr.1, rr.2)

/-- An instruction after the rewrite: the original instruction plus its
rewired operand list. -/
structure RInst where
  base : instruction
  newOps : List Nat
  deriving DecidableEq, Repr

def processInst (L : Nat → Layout) (ua : Bool) (bid : Nat) (i : instruction)
    (s : CtsState) : RInst × CtsState :=
  let r := rewireOps L ua bid i 0 i.ops s
  (⟨i, r.1⟩, r.2)

def processInsts (L : Nat → Layout) (ua : Bool) (bid : Nat) :
    List instruction → CtsState → List RInst × CtsState
  | [], s => ([], s)
  | i :: rest, s =>
    let r := processInst L ua bid i s
    let rr := processInsts L ua bid rest r.2
    (r.1 :: rr.1, rr.2)

/-- A basic block after the rewrite. -/
structure RBlock where
  bid : Nat
  succs : List Nat
  insts : List RInst
  deriving DecidableEq, Repr

def processBlocks (L : Nat → Layout) (ua : Bool) :
    List basic_block → CtsState → List RBlock × CtsState
  | [], s => ([], s)
  | b :: rest, s =>
    let r := processInsts L ua b.bid b.insts s
    let rr := processBlocks L ua rest r.2
    (⟨b.bid, b.succs, r.1⟩ :: rr.1, rr.2)

/-- `transform::cts`: a non-owning reference to the layouts analysis and
the asynchronous-copy flag, which defaults to `false` exactly as in the
declared constructor `cts(analysis::layouts*, bool use_async = false)`. -/
structure cts where
  layouts_ : layouts
  use_async_ : Bool := false

/-- The result of `cts::run`: the rewired blocks and the final state
(inserted copies and memo). -/
structure CtsOut where
  blocks : List RBlock
  state : CtsState

/-- Modelled from the spec: `cts::run(module)` walks every instruction in
program order, inserting and memoizing the copies every operand slot
needs.  Fresh copy ids start strictly above every id in the module. -/
def cts.transform (t : cts) (m : module) : CtsOut :=
  let r := processBlocks t.layouts_.layoutOf t.use_async_ m.blocks ⟨maxId m + 1, [], []⟩
  ⟨r.1, r.2⟩

def copyOpcode (c : CopyInst) : Opcode :=
  if c.toShared then Opcode.cpyToShared c.isAsync else Opcode.cpyFromShared

def CopyInst.toInst (c : CopyInst) : instruction :=
  ⟨c.cid, copyOpcode c, [c.src], false, []⟩

/-- Materialize the rewrite of one block: every straight-line copy lands
immediately before its triggering consumer and every phi-edge copy is
appended at the end of its predecessor block. -/
def materializeBlock (ins : List CopyInst) (rb : RBlock) : basic_block :=
  ⟨rb.bid,
   ((rb.insts.map (fun ri =>
       (ins.filter (fun c => decide (c.anchor = Anchor.before ri.base.id))).map
           CopyInst.toInst
         ++ [{ ri.base with ops := ri.newOps }])).flatten)
     ++ (ins.filter (fun c => decide (c.anchor = Anchor.blockEnd rb.bid))).map
         CopyInst.toInst,
   rb.succs⟩

/-- Modelled from the spec: `cts::run` as in-place module mutation — the
module with every operand edge rewired and every inserted copy placed. -/
def cts.run (t : cts) (m : module) : module :=
  let o := t.transform m
  ⟨o.blocks.map (materializeBlock o.state.inserted)⟩

/-! ### Pipeline driver (`add_passes_to_emit_bin`) -/

/-- The driver's result: the lowered module, the static shared-memory
footprint in bytes, and the optionally returned analyses. -/
structure DriverOut (α : Type) where
  bin : α
  shared_static : Nat
  last_layouts : Option layouts
  last_align : Option align

def driverAlign (m : module) : align := align.run m align.initial

def driverLayouts (m : module) : layouts := layouts.run m layouts.initial

/-- Modelled from the spec: the driver constructs the transform from the
computed layouts, enabling asynchronous copies only when pipelining is
requested (more than one stage). -/
def driverCts (m : module) (num_stages : Nat) : cts :=
  ⟨driverLayouts m, decide (1 < num_stages)⟩

/-- The module after the whole alignment → layout → copy-insertion
sequence. -/
def driverRewritten (m : module) (num_stages : Nat) : module :=
  (driverCts m num_stages).run m

/-- The distinct shared-layout allocations of the rewritten module: values
the layout analysis resolved to shared plus the inserted `to_shared`
copies, deduplicated. -/
def sharedAllocList (m : module) (o : CtsOut) (L : Nat → Layout) : List Nat :=
  (((valueIds m).filter (fun v => decide (L v = Layout.shared)))
     ++ (o.state.inserted.filter (fun c => c.toShared)).map CopyInst.cid).dedup

/-- The static shared-memory footprint: the sum of the byte sizes of the
distinct shared-layout allocations. -/
def sharedFootprint (sz : Nat → Nat) (m : module) (o : CtsOut) (L : Nat → Layout) : Nat :=
  ((sharedAllocList m o L).map sz).sum

/-- Modelled from the spec: `add_passes_to_emit_bin` — run alignment, then
layouts, then copy insertion, in that fixed order, then defer to the
out-of-scope lowering `lower` (external collaborator, modelled as a
fallible function) with the per-value byte-size oracle `sz`.  On lowering
failure no module and no footprint are returned; on success the lowered
module, the footprint, and the optionally requested analyses are. -/
def add_passes_to_emit_bin {α : Type} (lower : module → Option α) (sz : Nat → Nat)
    (m : module) (num_stages : Nat) (wantLayouts wantAlign : Bool) :
    Option (DriverOut α) :=
  let a := driverAlign m
  let l := driverLayouts m
  let t := driverCts m num_stages
  let o := t.transform m
  match lower (module.mk (o.blocks.map (materializeBlock o.state.inserted))) with
  | none => none
  | some bin =>
    some ⟨bin, sharedFootprint sz m o l.layoutOf,
          if wantLayouts then some l else none,
          if wantAlign then some a else none⟩

/-! ### Well-formedness of input modules -/

def defIdxIn (insts : List instruction) (v : Nat) : Option Nat :=
  insts.findIdx? (fun i => decide (i.id = v))

/-- SSA discipline inside each block: every operand of a non-phi
instruction that is defined in the same block is defined strictly
earlier. -/
def ssaOk (m : module) : Bool :=
  m.blocks.all (fun b =>
    (List.range b.insts.length).all (fun p =>
      match b.insts.get? p with
      | none => true
      | some i =>
        i.isPhi ||
          i.ops.all (fun v =>
            match defIdxIn b.insts v with
            | none => true
            | some q => decide (q < p))))

/-- Distinct basic-block ids. -/
def nodupBids (m : module) : Bool :=
  decide ((m.blocks.map basic_block.bid).Nodup)

/-! ### Example module (two blocks, a loop, phis, a matrix multiply) -/

def exMod : module :=
  ⟨[⟨0, [⟨1, Opcode.range, [], false, []⟩,
         ⟨2, Opcode.other, [1], false, []⟩,
         ⟨3, Opcode.dot, [2, 2], false, []⟩,
         ⟨4, Opcode.range, [], false, []⟩,
         ⟨5, Opcode.store, [4], false, []⟩,
         ⟨6, Opcode.other, [4], false, []⟩], [1]⟩,
    ⟨1, [⟨7, Opcode.phi, [4, 4], true, [0, 1]⟩,
         ⟨8, Opcode.phi, [4, 4], true, [0, 1]⟩,
         ⟨9, Opcode.other, [7], false, []⟩], [1]⟩]⟩

def exLayouts : layouts := driverLayouts exMod

/-! ### Predicates used by the proofs and the claim statements -/

/-- Inclusion of transform states: the counter only grows, the memo and the
inserted-copy list only gain entries (the latter at the end). -/
def stateMono (s s2 : CtsState) : Prop :=
  s.next ≤ s2.next ∧ (∀ e ∈ s.memo, e ∈ s2.memo) ∧ ∃ t, s2.inserted = s.inserted ++ t

/-- The invariant `cts::run` maintains: memo entries and inserted copies
are in exact correspondence, memo keys and copy ids are unique, and every
copy's placement matches its insertion context. -/
structure GInv (s : CtsState) : Prop where
  memoIns : ∀ e ∈ s.memo, ∃ cp ∈ s.inserted,
      cp.cid = e.2 ∧ cp.src = e.1.1 ∧ cp.toShared = e.1.2.1 ∧ cp.ctx = e.1.2.2
  insMemo : ∀ cp ∈ s.inserted, ((cp.src, cp.toShared, cp.ctx), cp.cid) ∈ s.memo
  keysNodup : (s.memo.map Prod.fst).Nodup
  cidBound : ∀ cp ∈ s.inserted, cp.cid < s.next
  cidsNodup : (s.inserted.map CopyInst.cid).Nodup
  anchors : ∀ cp ∈ s.inserted,
      cp.anchor = (match cp.ctx with
                   | CtsCtx.line _ => Anchor.before cp.owner
                   | CtsCtx.predEnd p => Anchor.blockEnd p)

/-- What `cts::add_copy` guarantees for one operand slot: an unchanged edge
when the layouts already match, otherwise an edge to a copy of the right
source, direction and insertion context. -/
def slotOk (L : Nat → Layout) (bid : Nat) (i : instruction) (s : CtsState)
    (k v w : Nat) : Prop :=
  match needDir L i.opcode k v with
  | none => w = v
  | some dir => ∃ cp ∈ s.inserted, w = cp.cid ∧ cp.src = v ∧ cp.toShared = dir ∧
      cp.ctx = ctxOf bid i k

/-- The shape of a copy freshly inserted while processing instruction `i`
in block `bid`: its id is at least `lo`, the triggering consumer is `i`,
its kind follows the async flag, and its source, context, placement and
direction come from one of `i`'s operand slots. -/
def newCopyShape (L : Nat → Layout) (ua : Bool) (bid : Nat) (i : instruction)
    (lo : Nat) (cp : CopyInst) : Prop :=
  lo ≤ cp.cid ∧ cp.owner = i.id ∧ cp.isAsync = (ua && cp.toShared) ∧
  ∃ k v, i.ops.get? k = some v ∧ cp.src = v ∧ cp.ctx = ctxOf bid i k ∧
    cp.anchor = anchorOf (ctxOf bid i k) i ∧
    needDir L i.opcode k v = some cp.toShared

/-- A straight-line copy's provenance inside a rewritten block: its
triggering consumer `ri` is a non-phi instruction of the block that
consumes the copy's source, and no instruction before `ri` references the
copy — the copy, placed immediately before `ri`, precedes every rewired
use in the block. -/
def lineProvIn (rs : List RInst) (cp : CopyInst) : Prop :=
  ∃ pre ri post, rs = pre ++ ri :: post ∧ ri.base.id = cp.owner ∧
    ri.base.isPhi = false ∧ cp.src ∈ ri.base.ops ∧
    ∀ rj ∈ pre, ∀ k w, rj.newOps.get? k = some w → w ≠ cp.cid

/-- A phi-edge copy's provenance: some phi node of the block consumes the
copy's source along the predecessor edge `p` the copy is appended to. -/
def phiProvIn (p : Nat) (rs : List RInst) (cp : CopyInst) : Prop :=
  ∃ ri ∈ rs, ri.base.isPhi = true ∧
    ∃ k, ri.base.ops.get? k = some cp.src ∧ ri.base.preds.getD k 0 = p

def provIn (b : Nat) (rs : List RInst) (cp : CopyInst) : Prop :=
  (cp.ctx = CtsCtx.line b ∧ lineProvIn rs cp) ∨
  (∃ p, cp.ctx = CtsCtx.predEnd p ∧ phiProvIn p rs cp)

/-- A copy with its blocking kind erased. -/
def stripAsync (cp : CopyInst) : CopyInst :=
  { cp with isAsync := false }

/-- Agreement of two transform states up to the copies' blocking kind. -/
def ARel (s sF : CtsState) : Prop :=
  s.next = sF.next ∧ s.memo = sF.memo ∧
    s.inserted.map stripAsync = sF.inserted.map stripAsync

/-- Claim C1 as a predicate on the transform's output: inserted copies are
unique per (source value, direction, insertion context), and every consumer
slot needing the same conversion in the same context references the one
memoized copy. -/
def C1Prop (t : cts) (m : module) : Prop :=
  (∀ cp ∈ (t.transform m).state.inserted, ∀ cp2 ∈ (t.transform m).state.inserted,
     cp.src = cp2.src → cp.toShared = cp2.toShared → cp.ctx = cp2.ctx → cp = cp2) ∧
  (∀ rb ∈ (t.transform m).blocks, ∀ rj ∈ rb.insts, ∀ k v dir,
     rj.base.ops.get? k = some v →
     needDir t.layouts_.layoutOf rj.base.opcode k v = some dir →
     ∃ cp ∈ (t.transform m).state.inserted,
       rj.newOps.get? k = some cp.cid ∧ cp.src = v ∧ cp.toShared = dir ∧
       cp.ctx = ctxOf rb.bid rj.base k ∧
       (∀ rb2 ∈ (t.transform m).blocks, ∀ rj2 ∈ rb2.insts, ∀ k2,
          rj2.base.ops.get? k2 = some v →
          needDir t.layouts_.layoutOf rj2.base.opcode k2 v = some dir →
          ctxOf rb2.bid rj2.base k2 = ctxOf rb.bid rj.base k →
          rj2.newOps.get? k2 = some cp.cid))

/-- Claim C2 as a predicate: a consumer requiring shared fed by a
non-shared-layout operand gets a `to_shared` copy, a consumer requiring
distributed fed by a shared-layout operand gets a `from_shared` copy, and
matching layouts leave the operand edge unchanged. -/
def C2Prop (t : cts) (m : module) : Prop :=
  ∀ rb ∈ (t.transform m).blocks, ∀ rj ∈ rb.insts, ∀ k v,
    rj.base.ops.get? k = some v →
    ((is_shmem_op rj.base.opcode k = true →
        t.layouts_.layoutOf v ≠ Layout.shared →
        ∃ cp ∈ (t.transform m).state.inserted,
          rj.newOps.get? k = some cp.cid ∧ cp.src = v ∧ cp.toShared = true) ∧
     (is_shmem_op rj.base.opcode k = false →
        t.layouts_.layoutOf v = Layout.shared →
        ∃ cp ∈ (t.transform m).state.inserted,
          rj.newOps.get? k = some cp.cid ∧ cp.src = v ∧ cp.toShared = false) ∧
     (is_shmem_op rj.base.opcode k = true →
        t.layouts_.layoutOf v = Layout.shared → rj.newOps.get? k = some v) ∧
     (is_shmem_op rj.base.opcode k = false →
        t.layouts_.layoutOf v ≠ Layout.shared → rj.newOps.get? k = some v))

/-- Claim C3 as a predicate: phi-edge copies are appended at the end of
the right predecessor block, straight-line copies sit immediately before
their triggering non-phi consumer, which consumes the source, no earlier
instruction of the block references the copy, the source's in-block
definition (when there is one) precedes the insertion point, and every
rewired use occurs in the copy's own insertion context. -/
def C3Prop (t : cts) (m : module) : Prop :=
  ∀ cp ∈ (t.transform m).state.inserted,
    (∀ p, cp.ctx = CtsCtx.predEnd p →
       cp.anchor = Anchor.blockEnd p ∧
       ∃ rb ∈ (t.transform m).blocks, ∃ ri ∈ rb.insts, ri.base.isPhi = true ∧
         ∃ k, ri.base.ops.get? k = some cp.src ∧ ri.base.preds.getD k 0 = p) ∧
    (∀ b, cp.ctx = CtsCtx.line b →
       cp.anchor = Anchor.before cp.owner ∧
       ∃ rb ∈ (t.transform m).blocks, rb.bid = b ∧
       ∃ pre ri post, rb.insts = pre ++ ri :: post ∧ ri.base.id = cp.owner ∧
         ri.base.isPhi = false ∧ cp.src ∈ ri.base.ops ∧
         (∀ rj ∈ pre, ∀ k w, rj.newOps.get? k = some w → w ≠ cp.cid) ∧
         (∀ q, defIdxIn (rb.insts.map RInst.base) cp.src = some q →
            q < pre.length)) ∧
    (∀ rb2 ∈ (t.transform m).blocks, ∀ rj2 ∈ rb2.insts, ∀ k2 w,
       rj2.newOps.get? k2 = some w → w = cp.cid →
       ctxOf rb2.bid rj2.base k2 = cp.ctx)

/-- Claim C6 as a predicate: the async and the sync run produce identical
rewired blocks, identical memo decisions, and copies identical up to the
blocking kind, which differs exactly on `to_shared` copies. -/
def C6Prop (l : layouts) (m : module) : Prop :=
  (cts.transform ⟨l, true⟩ m).blocks = (cts.transform ⟨l, false⟩ m).blocks ∧
  (cts.transform ⟨l, true⟩ m).state.next = (cts.transform ⟨l, false⟩ m).state.next ∧
  (cts.transform ⟨l, true⟩ m).state.memo = (cts.transform ⟨l, false⟩ m).state.memo ∧
  (cts.transform ⟨l, true⟩ m).state.inserted.map stripAsync =
    (cts.transform ⟨l, false⟩ m).state.inserted.map stripAsync ∧
  (∀ cp ∈ (cts.transform ⟨l, true⟩ m).state.inserted, cp.isAsync = cp.toShared) ∧
  (∀ cp ∈ (cts.transform ⟨l, false⟩ m).state.inserted, cp.isAsync = false)

/-- Claim C9 as a predicate: the rewritten blocks keep the input's block
ids, successor edges and original instructions in order (so the rewrite
only inserts copies and rewires operands), and the materialized module has
the identical control-flow graph. -/
def C9Prop (t : cts) (m : module) : Prop :=
  (t.transform m).blocks.map
      (fun rb => basic_block.mk rb.bid (rb.insts.map RInst.base) rb.succs) = m.blocks ∧
  (t.run m).blocks.map (fun b => (b.bid, b.succs)) =
    m.blocks.map (fun b => (b.bid, b.succs))

/-- Claim C10 as a predicate: building the transform without the flag is
the same object as passing `false` explicitly, rewrites any module
identically, and emits only blocking copies. -/
def C10Prop (l : layouts) (m : module) : Prop :=
  ({ layouts_ := l } : cts) = ⟨l, false⟩ ∧
  cts.transform { layouts_ := l } m = cts.transform ⟨l, false⟩ m ∧
  cts.run { layouts_ := l } m = cts.run ⟨l, false⟩ m ∧
  ∀ cp ∈ (cts.transform { layouts_ := l } m).state.inserted, cp.isAsync = false

/-! ### Basic list facts -/

theorem foldr_max_le {l : List Nat} {x : Nat} (h : x ∈ l) : x ≤ l.foldr Nat.max 0 := by
  induction l with
  | nil => cases h
  | cons a t ih =>
    rcases h with _ | h
    · exact Nat.le_max_left _ _
    · exact Nat.le_trans (ih ‹_›) (Nat.le_max_right _ _)

theorem instFold_le {l : List instruction} {i : instruction} (hi : i ∈ l) :
    Nat.max i.id (i.ops.foldr Nat.max 0) ≤
      l.foldr (fun j acc => Nat.max (Nat.max j.id (j.ops.foldr Nat.max 0)) acc) 0 := by
  induction l with
  | nil => cases hi
  | cons a t ih =>
    rcases hi with _ | hi
    · exact Nat.le_max_left _ _
    · exact Nat.le_trans (ih ‹_›) (Nat.le_max_right _ _)

theorem id_le_maxId {m : module} {i : instruction} (hi : i ∈ m.allInsts) :
    i.id ≤ maxId m :=
  Nat.le_trans (Nat.le_max_left _ _) (instFold_le hi)

theorem op_le_maxId {m : module} {i : instruction} {v : Nat} (hi : i ∈ m.allInsts)
    (hv : v ∈ i.ops) : v ≤ maxId m :=
  Nat.le_trans (Nat.le_trans (foldr_max_le hv) (Nat.le_max_right _ _)) (instFold_le hi)

theorem mem_allInsts_of_mem_block {m : module} {b : basic_block} {i : instruction}
    (hb : b ∈ m.blocks) (hi : i ∈ b.insts) : i ∈ m.allInsts := by
  unfold module.allInsts
  exact List.mem_flatten.mpr ⟨b.insts, List.mem_map_of_mem _ hb, hi⟩

theorem get?_append_cons {α : Type} (l : List α) (a : α) (r : List α) :
    (l ++ a :: r).get? l.length = some a := by
  rw [List.get?_append_right (Nat.le_refl _)]
  simp

/-! ### Memo lookup facts -/

theorem memoFind_mem {ms : List ((Nat × Bool × CtsCtx) × Nat)}
    {key : Nat × Bool × CtsCtx} {c : Nat} (h : memoFind ms key = some c) :
    (key, c) ∈ ms := by
  unfold memoFind at h
  rcases Option.map_eq_some'.mp h with ⟨e, he, hec⟩
  have h1 := List.find?_some he
  simp only [decide_eq_true_eq] at h1
  have h2 : e ∈ ms := List.mem_of_find?_eq_some he
  have : e = (key, c) := by
    cases e
    simp only at h1 hec
    rw [h1, hec]
  rwa [this] at h2

theorem memoFind_none {ms : List ((Nat × Bool × CtsCtx) × Nat)}
    {key : Nat × Bool × CtsCtx} (h : memoFind ms key = none) :
    ∀ c, (key, c) ∉ ms := by
  intro c hc
  unfold memoFind at h
  have hf : ms.find? (fun e => decide (e.1 = key)) = none := Option.map_eq_none'.mp h
  have := List.find?_eq_none.mp hf _ hc
  simp at this

theorem memoFind_of_mem {ms : List ((Nat × Bool × CtsCtx) × Nat)}
    {key : Nat × Bool × CtsCtx} {c : Nat}
    (hn : (ms.map Prod.fst).Nodup) (h : (key, c) ∈ ms) :
    memoFind ms key = some c := by
  unfold memoFind
  cases hf : ms.find? (fun e => decide (e.1 = key)) with
  | none =>
    exfalso
    have := List.find?_eq_none.mp hf _ h
    simp at this
  | some e =>
    have h1 := List.find?_some hf
    simp only [decide_eq_true_eq] at h1
    have h2 : e ∈ ms := List.mem_of_find?_eq_some hf
    have : e = (key, c) :=
      List.inj_on_of_nodup_map hn h2 h (by rw [h1])
    rw [this]
    rfl

/-! ### The transform's state invariant -/

theorem stateMono_refl (s : CtsState) : stateMono s s :=
  ⟨Nat.le_refl _, fun _ he => he, [], by simp⟩

theorem stateMono_trans {s1 s2 s3 : CtsState} (h : stateMono s1 s2)
    (h2 : stateMono s2 s3) : stateMono s1 s3 := by
  obtain ⟨hn, hm, t, ht⟩ := h
  obtain ⟨hn2, hm2, t2, ht2⟩ := h2
  exact ⟨Nat.le_trans hn hn2, fun e he => hm2 e (hm e he), t ++ t2, by rw [ht2, ht, List.append_assoc]⟩

theorem stateMono_inserted {s s2 : CtsState} (h : stateMono s s2) {cp : CopyInst}
    (hc : cp ∈ s.inserted) : cp ∈ s2.inserted := by
  obtain ⟨-, -, t, ht⟩ := h
  rw [ht]
  exact List.mem_append_left _ hc

theorem GInv.cid_inj {s : CtsState} (h : GInv s) {cp cp2 : CopyInst}
    (hc : cp ∈ s.inserted) (hc2 : cp2 ∈ s.inserted) (he : cp.cid = cp2.cid) :
    cp = cp2 :=
  List.inj_on_of_nodup_map h.cidsNodup hc hc2 he

theorem slotOk_mono {L : Nat → Layout} {bid : Nat} {i : instruction}
    {s s2 : CtsState} {k v w : Nat} (hm : stateMono s s2)
    (h : slotOk L bid i s k v w) : slotOk L bid i s2 k v w := by
  unfold slotOk at h ⊢
  cases hn : needDir L i.opcode k v with
  | none => rw [hn] at h; exact h
  | some dir =>
    rw [hn] at h
    obtain ⟨cp, hc, hrest⟩ := h
    exact ⟨cp, stateMono_inserted hm hc, hrest⟩

theorem processOperand_spec (L : Nat → Layout) (ua : Bool) (bid : Nat)
    (i : instruction) (k v : Nat) (s : CtsState) (hinv : GInv s) (hv : v < s.next)
    (hkv : i.ops.get? k = some v) :
    GInv (processOperand L ua bid i k v s).2 ∧
    stateMono s (processOperand L ua bid i k v s).2 ∧
    (processOperand L ua bid i k v s).1 < (processOperand L ua bid i k v s).2.next ∧
    (∀ cp ∈ (processOperand L ua bid i k v s).2.inserted,
        cp ∈ s.inserted ∨ newCopyShape L ua bid i s.next cp) ∧
    slotOk L bid i (processOperand L ua bid i k v s).2 k v
      (processOperand L ua bid i k v s).1 := by
  unfold processOperand
  cases hn : needDir L i.opcode k v with
  | none =>
    refine ⟨hinv, stateMono_refl s, hv, fun cp hc => Or.inl hc, ?_⟩
    simp only [slotOk, hn]
  | some dir =>
    dsimp only
    cases hm : memoFind s.memo (v, dir, ctxOf bid i k) with
    | some cid =>
      obtain ⟨cp, hcp, hcid, hsrc, hts, hctx⟩ := hinv.memoIns _ (memoFind_mem hm)
      refine ⟨hinv, stateMono_refl s, ?_, fun cp hc => Or.inl hc, ?_⟩
      · have := hinv.cidBound cp hcp
        simp only [hcid] at this
        exact this
      · simp only [slotOk, hn]
        exact ⟨cp, hcp, hcid.symm, hsrc, hts, hctx⟩
    | none =>
      refine ⟨⟨?_, ?_, ?_, ?_, ?_, ?_⟩, ?_, ?_, ?_, ?_⟩
      · intro e he
        rcases List.mem_cons.mp he with he | he
        · subst he
          exact ⟨_, List.mem_append_right _ (List.mem_singleton.mpr rfl),
                 rfl, rfl, rfl, rfl⟩
        · obtain ⟨cp, hcp, hrest⟩ := hinv.memoIns e he
          exact ⟨cp, List.mem_append_left _ hcp, hrest⟩
      · intro cp hc
        rcases List.mem_append.mp hc with hc | hc
        · exact List.mem_cons_of_mem _ (hinv.insMemo cp hc)
        · rw [List.mem_singleton.mp hc]
          exact List.mem_cons_self _ _
      · simp only [List.map_cons]
        refine List.Nodup.cons ?_ hinv.keysNodup
        intro hmem
        obtain ⟨e, he, he1⟩ := List.mem_map.mp hmem
        have : ((v, dir, ctxOf bid i k), e.2) ∈ s.memo := by
          have : e = ((v, dir, ctxOf bid i k), e.2) := by
            rw [← he1]
          rwa [this] at he
        exact memoFind_none hm e.2 this
      · intro cp hc
        rcases List.mem_append.mp hc with hc | hc
        · exact Nat.lt_trans (hinv.cidBound cp hc) (Nat.lt_succ_self _)
        · rw [List.mem_singleton.mp hc]
          exact Nat.lt_succ_self _
      · simp only [List.map_append, List.map_cons, List.map_nil]
        refine List.Nodup.append hinv.cidsNodup (List.nodup_singleton _) ?_
        intro a ha ha2
        obtain ⟨cp, hcp, hcid⟩ := List.mem_map.mp ha
        have h1 : a < s.next := hcid ▸ hinv.cidBound cp hcp
        have h2 : a = s.next := List.mem_singleton.mp ha2
        omega
      · intro cp hc
        rcases List.mem_append.mp hc with hc | hc
        · exact hinv.anchors cp hc
        · rw [List.mem_singleton.mp hc]
          cases hphi : i.isPhi <;> simp [ctxOf, anchorOf, hphi]
      · exact ⟨Nat.le_succ _, fun e he => List.mem_cons_of_mem _ he, _, rfl⟩
      · exact Nat.lt_succ_self _
      · intro cp hc
        rcases List.mem_append.mp hc with hc | hc
        · exact Or.inl hc
        · rw [List.mem_singleton.mp hc]
          exact Or.inr ⟨Nat.le_refl _, rfl, rfl, k, v, hkv, rfl, rfl, rfl, hn⟩
      · simp only [slotOk, hn]
        exact ⟨_, List.mem_append_right _ (List.mem_singleton.mpr rfl),
               rfl, rfl, rfl, rfl⟩

theorem newCopyShape_lo {L : Nat → Layout} {ua : Bool} {bid : Nat}
    {i : instruction} {lo lo2 : Nat} {cp : CopyInst} (hle : lo2 ≤ lo)
    (h : newCopyShape L ua bid i lo cp) : newCopyShape L ua bid i lo2 cp :=
  ⟨Nat.le_trans hle h.1, h.2.1, h.2.2.1, h.2.2.2⟩

theorem rewireOps_spec (L : Nat → Layout) (ua : Bool) (bid : Nat) (i : instruction) :
    ∀ (tl : List Nat) (k : Nat) (s : CtsState),
    GInv s →
    (∀ j v, tl.get? j = some v → i.ops.get? (k + j) = some v) →
    (∀ v ∈ tl, v < s.next) →
    GInv (rewireOps L ua bid i k tl s).2 ∧
    stateMono s (rewireOps L ua bid i k tl s).2 ∧
    (rewireOps L ua bid i k tl s).1.length = tl.length ∧
    (∀ w ∈ (rewireOps L ua bid i k tl s).1, w < (rewireOps L ua bid i k tl s).2.next) ∧
    (∀ cp ∈ (rewireOps L ua bid i k tl s).2.inserted,
        cp ∈ s.inserted ∨ newCopyShape L ua bid i s.next cp) ∧
    (∀ j v, tl.get? j = some v →
        ∃ w, (rewireOps L ua bid i k tl s).1.get? j = some w ∧
          slotOk L bid i (rewireOps L ua bid i k tl s).2 (k + j) v w) := by
  intro tl
  induction tl with
  | nil =>
    intro k s hinv hgets hb
    refine ⟨hinv, stateMono_refl s, rfl, ?_, ?_, ?_⟩
    · intro w hw
      cases hw
    · intro cp hc
      exact Or.inl hc
    · intro j v hj
      simp at hj
  | cons v rest ih =>
    intro k s hinv hgets hb
    have hkv : i.ops.get? k = some v := by
      have := hgets 0 v rfl
      simpa using this
    have hv : v < s.next := hb v (List.mem_cons_self _ _)
    obtain ⟨hinv1, hmono1, hw1, hnew1, hslot1⟩ :=
      processOperand_spec L ua bid i k v s hinv hv hkv
    have hgets2 : ∀ j v2, rest.get? j = some v2 →
        i.ops.get? (k + 1 + j) = some v2 := by
      intro j v2 hj
      have e : k + 1 + j = k + (j + 1) := by omega
      rw [e]
      exact hgets (j + 1) v2 hj
    have hb2 : ∀ v2 ∈ rest, v2 < (processOperand L ua bid i k v s).2.next := by
      intro v2 hv2
      exact Nat.lt_of_lt_of_le (hb v2 (List.mem_cons_of_mem _ hv2)) hmono1.1
    obtain ⟨hinv2, hmono2, hlen2, hwb2, hnew2, hslot2⟩ :=
      ih (k + 1) (processOperand L ua bid i k v s).2 hinv1 hgets2 hb2
    simp only [rewireOps]
    refine ⟨hinv2, stateMono_trans hmono1 hmono2, by simp [hlen2], ?_, ?_, ?_⟩
    · intro w hw
      rcases List.mem_cons.mp hw with hw | hw
      · subst hw
        exact Nat.lt_of_lt_of_le hw1 hmono2.1
      · exact hwb2 w hw
    · intro cp hc
      rcases hnew2 cp hc with hc2 | hc2
      · rcases hnew1 cp hc2 with hc3 | hc3
        · exact Or.inl hc3
        · exact Or.inr hc3
      · exact Or.inr (newCopyShape_lo hmono1.1 hc2)
    · intro j v2 hj
      cases j with
      | zero =>
        simp only [List.get?] at hj
        injection hj with hj
        subst hj
        refine ⟨(processOperand L ua bid i k v s).1, rfl, ?_⟩
        have e : k + 0 = k := by omega
        rw [e]
        exact slotOk_mono hmono2 hslot1
      | succ j =>
        have hj2 : rest.get? j = some v2 := hj
        obtain ⟨w, hw, hs⟩ := hslot2 j v2 hj2
        refine ⟨w, hw, ?_⟩
        have e : k + (j + 1) = k + 1 + j := by omega
        rw [e]
        exact hs

theorem processInst_spec (L : Nat → Layout) (ua : Bool) (bid : Nat)
    (i : instruction) (s : CtsState) (hinv : GInv s)
    (hops : ∀ v ∈ i.ops, v < s.next) :
    GInv (processInst L ua bid i s).2 ∧
    stateMono s (processInst L ua bid i s).2 ∧
    (processInst L ua bid i s).1.base = i ∧
    (processInst L ua bid i s).1.newOps.length = i.ops.length ∧
    (∀ w ∈ (processInst L ua bid i s).1.newOps, w < (processInst L ua bid i s).2.next) ∧
    (∀ cp ∈ (processInst L ua bid i s).2.inserted,
        cp ∈ s.inserted ∨ newCopyShape L ua bid i s.next cp) ∧
    (∀ k v, i.ops.get? k = some v →
        ∃ w, (processInst L ua bid i s).1.newOps.get? k = some w ∧
          slotOk L bid i (processInst L ua bid i s).2 k v w) := by
  obtain ⟨h1, h2, h3, h4, h5, h6⟩ :=
    rewireOps_spec L ua bid i i.ops 0 s hinv (fun j v hj => by simpa using hj) hops
  refine ⟨h1, h2, rfl, h3, h4, h5, ?_⟩
  intro k v hk
  have := h6 k v hk
  simpa using this

/-! ### Provenance of inserted copies: placement inside the rewritten block -/

theorem provIn_append {b : Nat} {rs more : List RInst} {cp : CopyInst}
    (h : provIn b rs cp) : provIn b (rs ++ more) cp := by
  rcases h with ⟨hctx, pre, ri, post, heq, h1, h2, h3, h4⟩ | ⟨p, hctx, ri, hri, hrest⟩
  · refine Or.inl ⟨hctx, pre, ri, post ++ more, ?_, h1, h2, h3, h4⟩
    rw [heq, List.append_assoc, List.cons_append]
  · exact Or.inr ⟨p, hctx, ri, List.mem_append_left _ hri, hrest⟩

theorem provIn_cons {b lo : Nat} {rs : List RInst} {r0 : RInst} {cp : CopyInst}
    (h : provIn b rs cp)
    (hr0 : ∀ k w, r0.newOps.get? k = some w → w < lo)
    (hlo : lo ≤ cp.cid) : provIn b (r0 :: rs) cp := by
  rcases h with ⟨hctx, pre, ri, post, heq, h1, h2, h3, h4⟩ | ⟨p, hctx, ri, hri, hrest⟩
  · refine Or.inl ⟨hctx, r0 :: pre, ri, post, ?_, h1, h2, h3, ?_⟩
    · rw [heq]
      rfl
    · intro rj hrj k w hw
      rcases List.mem_cons.mp hrj with hrj | hrj
      · subst hrj
        exact Nat.ne_of_lt (Nat.lt_of_lt_of_le (hr0 k w hw) hlo)
      · exact h4 rj hrj k w hw
  · exact Or.inr ⟨p, hctx, ri, List.mem_cons_of_mem _ hri, hrest⟩

theorem newCopyShape_provIn {L : Nat → Layout} {ua : Bool} {bid lo : Nat}
    {i : instruction} {cp : CopyInst} {ri : RInst} (hbase : ri.base = i)
    (h : newCopyShape L ua bid i lo cp) : provIn bid [ri] cp := by
  obtain ⟨hlo, howner, hasync, k, v, hkv, hsrc, hctx, hanch, hnd⟩ := h
  cases hphi : i.isPhi with
  | true =>
    refine Or.inr ⟨i.preds.getD k 0, ?_, ri, List.mem_singleton.mpr rfl, ?_, k, ?_, ?_⟩
    · rw [hctx]
      simp [ctxOf, hphi]
    · rw [hbase]
      exact hphi
    · rw [hbase, hsrc]
      exact hkv
    · rw [hbase]
  | false =>
    refine Or.inl ⟨?_, [], ri, [], rfl, ?_, ?_, ?_, ?_⟩
    · rw [hctx]
      simp [ctxOf, hphi]
    · rw [hbase, howner]
    · rw [hbase]
      exact hphi
    · rw [hbase, hsrc]
      exact List.get?_mem hkv
    · intro rj hrj
      cases hrj

theorem processInsts_spec (L : Nat → Layout) (ua : Bool) (b : Nat) :
    ∀ (todo : List instruction) (s : CtsState),
    GInv s →
    (∀ i ∈ todo, ∀ v ∈ i.ops, v < s.next) →
    GInv (processInsts L ua b todo s).2 ∧
    stateMono s (processInsts L ua b todo s).2 ∧
    (processInsts L ua b todo s).1.map RInst.base = todo ∧
    (∀ rj ∈ (processInsts L ua b todo s).1,
        rj.newOps.length = rj.base.ops.length) ∧
    (∀ rj ∈ (processInsts L ua b todo s).1, ∀ k w, rj.newOps.get? k = some w →
        w < (processInsts L ua b todo s).2.next) ∧
    (∀ cp ∈ (processInsts L ua b todo s).2.inserted, cp ∈ s.inserted ∨
        (s.next ≤ cp.cid ∧ provIn b (processInsts L ua b todo s).1 cp ∧
         cp.isAsync = (ua && cp.toShared))) ∧
    (∀ rj ∈ (processInsts L ua b todo s).1, ∀ k v, rj.base.ops.get? k = some v →
        ∃ w, rj.newOps.get? k = some w ∧
          slotOk L b rj.base (processInsts L ua b todo s).2 k v w) := by
  intro todo
  induction todo with
  | nil =>
    intro s hinv hb
    refine ⟨hinv, stateMono_refl s, rfl, ?_, ?_, ?_, ?_⟩
    · intro rj hj
      cases hj
    · intro rj hj
      cases hj
    · intro cp hc
      exact Or.inl hc
    · intro rj hj
      cases hj
  | cons i rest ih =>
    intro s hinv hb
    obtain ⟨hinva, hmonoa, hbase, hlena, hwbnd, hnews, hslots⟩ :=
      processInst_spec L ua b i s hinv (hb i (List.mem_cons_self _ _))
    have hb2 : ∀ i2 ∈ rest, ∀ v ∈ i2.ops, v < (processInst L ua b i s).2.next := by
      intro i2 hi2 v hv
      exact Nat.lt_of_lt_of_le (hb i2 (List.mem_cons_of_mem _ hi2) v hv) hmonoa.1
    obtain ⟨hinv2, hmono2, hmap2, hlen2, hwb2, hnew2, hslot2⟩ :=
      ih (processInst L ua b i s).2 hinva hb2
    simp only [processInsts]
    refine ⟨hinv2, stateMono_trans hmonoa hmono2, ?_, ?_, ?_, ?_, ?_⟩
    · simp only [List.map_cons, hbase, hmap2]
    · intro rj hj
      rcases List.mem_cons.mp hj with hj | hj
      · subst hj
        rw [hbase]
        exact hlena
      · exact hlen2 rj hj
    · intro rj hj k w hw
      rcases List.mem_cons.mp hj with hj | hj
      · subst hj
        exact Nat.lt_of_lt_of_le (hwbnd w (List.get?_mem hw)) hmono2.1
      · exact hwb2 rj hj k w hw
    · intro cp hc
      rcases hnew2 cp hc with hc2 | hc2
      · rcases hnews cp hc2 with hc3 | hshape
        · exact Or.inl hc3
        · exact Or.inr ⟨hshape.1, provIn_append (newCopyShape_provIn hbase hshape),
                        hshape.2.2.1⟩
      · obtain ⟨hle, hprov, hasync⟩ := hc2
        refine Or.inr ⟨Nat.le_trans hmonoa.1 hle, ?_, hasync⟩
        refine provIn_cons hprov ?_ hle
        intro k w hw
        exact hwbnd w (List.get?_mem hw)
    · intro rj hj k v hkv
      rcases List.mem_cons.mp hj with hj | hj
      · subst hj
        rw [hbase] at hkv ⊢
        obtain ⟨w, hw, hs⟩ := hslots k v hkv
        exact ⟨w, hw, slotOk_mono hmono2 hs⟩
      · exact hslot2 rj hj k v hkv

theorem processBlocks_spec (L : Nat → Layout) (ua : Bool) :
    ∀ (bs : List basic_block) (s : CtsState),
    GInv s →
    (∀ b ∈ bs, ∀ i ∈ b.insts, ∀ v ∈ i.ops, v < s.next) →
    GInv (processBlocks L ua bs s).2 ∧
    stateMono s (processBlocks L ua bs s).2 ∧
    (processBlocks L ua bs s).1.map
        (fun rb => basic_block.mk rb.bid (rb.insts.map RInst.base) rb.succs) = bs ∧
    (∀ rb ∈ (processBlocks L ua bs s).1, ∀ rj ∈ rb.insts,
        rj.newOps.length = rj.base.ops.length) ∧
    (∀ cp ∈ (processBlocks L ua bs s).2.inserted, cp ∈ s.inserted ∨
        (s.next ≤ cp.cid ∧
         (∃ rb ∈ (processBlocks L ua bs s).1, provIn rb.bid rb.insts cp) ∧
         cp.isAsync = (ua && cp.toShared))) ∧
    (∀ rb ∈ (processBlocks L ua bs s).1, ∀ rj ∈ rb.insts, ∀ k v,
        rj.base.ops.get? k = some v →
        ∃ w, rj.newOps.get? k = some w ∧
          slotOk L rb.bid rj.base (processBlocks L ua bs s).2 k v w) := by
  intro bs
  induction bs with
  | nil =>
    intro s hinv hb
    refine ⟨hinv, stateMono_refl s, rfl, ?_, ?_, ?_⟩
    · intro rb hrb
      cases hrb
    · intro cp hc
      exact Or.inl hc
    · intro rb hrb
      cases hrb
  | cons b rest ih =>
    intro s hinv hb
    obtain ⟨hinva, hmonoa, hmapa, hlena, hwbnda, hnewsa, hslotsa⟩ :=
      processInsts_spec L ua b.bid b.insts s hinv (hb b (List.mem_cons_self _ _))
    have hb2 : ∀ b2 ∈ rest, ∀ i ∈ b2.insts, ∀ v ∈ i.ops,
        v < (processInsts L ua b.bid b.insts s).2.next := by
      intro b2 hb2 i hi v hv
      exact Nat.lt_of_lt_of_le (hb b2 (List.mem_cons_of_mem _ hb2) i hi v hv) hmonoa.1
    obtain ⟨hinv2, hmono2, hmap2, hlen2, hnew2, hslot2⟩ :=
      ih (processInsts L ua b.bid b.insts s).2 hinva hb2
    simp only [processBlocks]
    refine ⟨hinv2, stateMono_trans hmonoa hmono2, ?_, ?_, ?_, ?_⟩
    · simp only [List.map_cons, hmapa, hmap2]
    · intro rb hrb rj hj
      rcases List.mem_cons.mp hrb with hrb | hrb
      · subst hrb
        exact hlena rj hj
      · exact hlen2 rb hrb rj hj
    · intro cp hc
      rcases hnew2 cp hc with hc2 | hc2
      · rcases hnewsa cp hc2 with hc3 | hc3
        · exact Or.inl hc3
        · obtain ⟨hle, hprov, hasync⟩ := hc3
          exact Or.inr ⟨hle,
            ⟨⟨b.bid, b.succs, (processInsts L ua b.bid b.insts s).1⟩,
             List.mem_cons_self _ _, hprov⟩, hasync⟩
      · obtain ⟨hle, ⟨rb, hrb, hprov⟩, hasync⟩ := hc2
        exact Or.inr ⟨Nat.le_trans hmonoa.1 hle,
          ⟨rb, List.mem_cons_of_mem _ hrb, hprov⟩, hasync⟩
    · intro rb hrb rj hj k v hkv
      rcases List.mem_cons.mp hrb with hrb | hrb
      · subst hrb
        obtain ⟨w, hw, hs⟩ := hslotsa rj hj k v hkv
        exact ⟨w, hw, slotOk_mono hmono2 hs⟩
      · exact hslot2 rb hrb rj hj k v hkv

/-- The top-level behaviour of `cts::run`: well-formed final state, block
and instruction skeleton preserved, every inserted copy has a fresh id,
provenance inside one rewritten block, and the kind dictated by the async
flag, and every operand slot is correctly rewired. -/
theorem transform_spec (t : cts) (m : module) :
    GInv (t.transform m).state ∧
    (t.transform m).blocks.map
        (fun rb => basic_block.mk rb.bid (rb.insts.map RInst.base) rb.succs) = m.blocks ∧
    (∀ rb ∈ (t.transform m).blocks, ∀ rj ∈ rb.insts,
        rj.newOps.length = rj.base.ops.length) ∧
    (∀ cp ∈ (t.transform m).state.inserted,
        maxId m + 1 ≤ cp.cid ∧
        (∃ rb ∈ (t.transform m).blocks, provIn rb.bid rb.insts cp) ∧
        cp.isAsync = (t.use_async_ && cp.toShared)) ∧
    (∀ rb ∈ (t.transform m).blocks, ∀ rj ∈ rb.insts, ∀ k v,
        rj.base.ops.get? k = some v →
        ∃ w, rj.newOps.get? k = some w ∧
          slotOk t.layouts_.layoutOf rb.bid rj.base (t.transform m).state k v w) := by
  have hinv0 : GInv ⟨maxId m + 1, [], []⟩ := by
    refine ⟨?_, ?_, ?_, ?_, ?_, ?_⟩ <;>
      first
        | exact fun e he => absurd he (List.not_mem_nil e)
        | exact List.nodup_nil
  have hb0 : ∀ b ∈ m.blocks, ∀ i ∈ b.insts, ∀ v ∈ i.ops,
      v < (CtsState.mk (maxId m + 1) [] []).next := by
    intro b hb i hi v hv
    exact Nat.lt_succ_of_le (op_le_maxId (mem_allInsts_of_mem_block hb hi) hv)
  obtain ⟨h1, h2, h3, h4, h5, h6⟩ :=
    processBlocks_spec t.layouts_.layoutOf t.use_async_ m.blocks
      ⟨maxId m + 1, [], []⟩ hinv0 hb0
  refine ⟨h1, h3, h4, ?_, h6⟩
  intro cp hc
  rcases h5 cp hc with hc2 | hc2
  · cases hc2
  · exact hc2

/-! ### The async flag only changes the copies' blocking kind -/

theorem ARel_refl (s : CtsState) : ARel s s := ⟨rfl, rfl, rfl⟩

theorem processOperand_async (L : Nat → Layout) (ua : Bool) (bid : Nat)
    (i : instruction) (k v : Nat) (s sF : CtsState) (h : ARel s sF) :
    (processOperand L ua bid i k v s).1 = (processOperand L false bid i k v sF).1 ∧
    ARel (processOperand L ua bid i k v s).2 (processOperand L false bid i k v sF).2 := by
  obtain ⟨hn, hm, hi⟩ := h
  unfold processOperand
  cases hd : needDir L i.opcode k v with
  | none => exact ⟨rfl, hn, hm, hi⟩
  | some dir =>
    dsimp only
    rw [hm]
    cases hf : memoFind sF.memo (v, dir, ctxOf bid i k) with
    | some cid => exact ⟨rfl, hn, hm, hi⟩
    | none =>
      dsimp only
      refine ⟨hn, by rw [hn], by rw [hn], ?_⟩
      simp only [List.map_append, List.map_cons, List.map_nil, hi, hn]
      rfl

theorem rewireOps_async (L : Nat → Layout) (ua : Bool) (bid : Nat)
    (i : instruction) :
    ∀ (tl : List Nat) (k : Nat) (s sF : CtsState), ARel s sF →
    (rewireOps L ua bid i k tl s).1 = (rewireOps L false bid i k tl sF).1 ∧
    ARel (rewireOps L ua bid i k tl s).2 (rewireOps L false bid i k tl sF).2 := by
  intro tl
  induction tl with
  | nil =>
    intro k s sF h
    exact ⟨rfl, h⟩
  | cons v rest ih =>
    intro k s sF h
    obtain ⟨he, ha⟩ := processOperand_async L ua bid i k v s sF h
    obtain ⟨he2, ha2⟩ := ih (k + 1) _ _ ha
    simp only [rewireOps]
    exact ⟨by rw [he, he2], ha2⟩

theorem processInst_async (L : Nat → Layout) (ua : Bool) (bid : Nat)
    (i : instruction) (s sF : CtsState) (h : ARel s sF) :
    (processInst L ua bid i s).1 = (processInst L false bid i sF).1 ∧
    ARel (processInst L ua bid i s).2 (processInst L false bid i sF).2 := by
  obtain ⟨he, ha⟩ := rewireOps_async L ua bid i i.ops 0 s sF h
  unfold processInst
  exact ⟨by dsimp only; rw [he], ha⟩

theorem processInsts_async (L : Nat → Layout) (ua : Bool) (bid : Nat) :
    ∀ (todo : List instruction) (s sF : CtsState), ARel s sF →
    (processInsts L ua bid todo s).1 = (processInsts L false bid todo sF).1 ∧
    ARel (processInsts L ua bid todo s).2 (processInsts L false bid todo sF).2 := by
  intro todo
  induction todo with
  | nil =>
    intro s sF h
    exact ⟨rfl, h⟩
  | cons i rest ih =>
    intro s sF h
    obtain ⟨he, ha⟩ := processInst_async L ua bid i s sF h
    obtain ⟨he2, ha2⟩ := ih _ _ ha
    simp only [processInsts]
    exact ⟨by rw [he, he2], ha2⟩

theorem processBlocks_async (L : Nat → Layout) (ua : Bool) :
    ∀ (bs : List basic_block) (s sF : CtsState), ARel s sF →
    (processBlocks L ua bs s).1 = (processBlocks L false bs sF).1 ∧
    ARel (processBlocks L ua bs s).2 (processBlocks L false bs sF).2 := by
  intro bs
  induction bs with
  | nil =>
    intro s sF h
    exact ⟨rfl, h⟩
  | cons b rest ih =>
    intro s sF h
    obtain ⟨he, ha⟩ := processInsts_async L ua b.bid b.insts s sF h
    obtain ⟨he2, ha2⟩ := ih _ _ ha
    simp only [processBlocks]
    exact ⟨by rw [he, he2], ha2⟩

theorem transform_async (l : layouts) (ua : Bool) (m : module) :
    (cts.transform ⟨l, ua⟩ m).blocks = (cts.transform ⟨l, false⟩ m).blocks ∧
    ARel (cts.transform ⟨l, ua⟩ m).state (cts.transform ⟨l, false⟩ m).state := by
  obtain ⟨he, ha⟩ :=
    processBlocks_async l.layoutOf ua m.blocks ⟨maxId m + 1, [], []⟩
      ⟨maxId m + 1, [], []⟩ (ARel_refl _)
  exact ⟨he, ha⟩

/-! ### Reading the SSA discipline off the boolean checker -/

theorem ssaOk_spec {m : module} (h : ssaOk m = true) :
    ∀ b ∈ m.blocks, ∀ p i, b.insts.get? p = some i → i.isPhi = false →
    ∀ v ∈ i.ops, ∀ q, defIdxIn b.insts v = some q → q < p := by
  intro b hb p i hp hphi v hv q hq
  unfold ssaOk at h
  rw [List.all_eq_true] at h
  have hblock := h b hb
  rw [List.all_eq_true] at hblock
  have hlen : p < b.insts.length := by
    rcases List.get?_eq_some.mp hp with ⟨hl, -⟩
    exact hl
  have hp2 := hblock p (List.mem_range.mpr hlen)
  simp only [hp] at hp2
  rw [hphi] at hp2
  simp only [Bool.false_or] at hp2
  rw [List.all_eq_true] at hp2
  have hv2 := hp2 v hv
  simp only [hq] at hv2
  exact of_decide_eq_true hv2

theorem base_mem_allInsts {m : module} {obs : List RBlock}
    (hskel : obs.map
        (fun rb => basic_block.mk rb.bid (rb.insts.map RInst.base) rb.succs) = m.blocks)
    {rb : RBlock} (hrb : rb ∈ obs) {rj : RInst} (hj : rj ∈ rb.insts) :
    rj.base ∈ m.allInsts := by
  unfold module.allInsts
  rw [← hskel]
  refine List.mem_flatten.mpr ⟨rb.insts.map RInst.base, ?_, List.mem_map_of_mem _ hj⟩
  rw [List.map_map]
  exact List.mem_map_of_mem _ hrb

theorem GInv.key_inj {s : CtsState} (hinv : GInv s) {cp cp2 : CopyInst}
    (hc : cp ∈ s.inserted) (hc2 : cp2 ∈ s.inserted) (h1 : cp.src = cp2.src)
    (h2 : cp.toShared = cp2.toShared) (h3 : cp.ctx = cp2.ctx) : cp = cp2 := by
  have e1 := hinv.insMemo cp hc
  have e2 := hinv.insMemo cp2 hc2
  rw [h1, h2, h3] at e1
  have he : ((cp2.src, cp2.toShared, cp2.ctx), cp.cid) =
      ((cp2.src, cp2.toShared, cp2.ctx), cp2.cid) :=
    List.inj_on_of_nodup_map hinv.keysNodup e1 e2 rfl
  exact hinv.cid_inj hc hc2 (congrArg Prod.snd he)

/-! ### Statements of the claims -/

/-! ### Claim theorems for the copy-insertion transform -/

/-- C1: after `cts::run`, at most one copy instruction exists per
(defining value, direction) pair within a dominance-valid insertion
context — the memo is consulted before inserting — and when several
instructions consume the same value needing the same-direction conversion
in one context, exactly one copy is inserted and all of them reference
it. -/
theorem cts_memo_dedup (t : cts) (m : module) : C1Prop t m := by
  obtain ⟨hinv, hskel, hlen, hcopies, hslots⟩ := transform_spec t m
  constructor
  · intro cp hc cp2 hc2 h1 h2 h3
    exact hinv.key_inj hc hc2 h1 h2 h3
  · intro rb hrb rj hj k v dir hkv hnd
    obtain ⟨w, hw, hs⟩ := hslots rb hrb rj hj k v hkv
    simp only [slotOk, hnd] at hs
    obtain ⟨cp, hcp, hwc, hsrc, hts, hctx⟩ := hs
    subst hwc
    refine ⟨cp, hcp, hw, hsrc, hts, hctx, ?_⟩
    intro rb2 hrb2 rj2 hj2 k2 hkv2 hnd2 hctx2
    obtain ⟨w2, hw2, hs2⟩ := hslots rb2 hrb2 rj2 hj2 k2 v hkv2
    simp only [slotOk, hnd2] at hs2
    obtain ⟨cp2, hcp2, hwc2, hsrc2, hts2, hctx3⟩ := hs2
    have he : cp2 = cp :=
      hinv.key_inj hcp2 hcp (by rw [hsrc2, hsrc]) (by rw [hts2, hts])
        (by rw [hctx3, hctx2, hctx])
    rw [hw2, hwc2, he]

/-- C2: for every operand slot the transform processes, a consumer
requiring the shared layout fed by a non-shared operand receives a
`to_shared` copy, a consumer requiring distributed fed by a shared operand
receives a `from_shared` copy, and when the resolved layout already
matches the requirement the operand edge is left unchanged. -/
theorem cts_direction_correct (t : cts) (m : module) : C2Prop t m := by
  obtain ⟨hinv, hskel, hlen, hcopies, hslots⟩ := transform_spec t m
  intro rb hrb rj hj k v hkv
  refine ⟨?_, ?_, ?_, ?_⟩
  · intro hsh hL
    have hnd : needDir t.layouts_.layoutOf rj.base.opcode k v = some true := by
      simp [needDir, hsh, hL]
    obtain ⟨w, hw, hs⟩ := hslots rb hrb rj hj k v hkv
    simp only [slotOk, hnd] at hs
    obtain ⟨cp, hcp, hwc, hsrc, hts, -⟩ := hs
    exact ⟨cp, hcp, by rw [hw, hwc], hsrc, hts⟩
  · intro hsh hL
    have hnd : needDir t.layouts_.layoutOf rj.base.opcode k v = some false := by
      simp [needDir, hsh, hL]
    obtain ⟨w, hw, hs⟩ := hslots rb hrb rj hj k v hkv
    simp only [slotOk, hnd] at hs
    obtain ⟨cp, hcp, hwc, hsrc, hts, -⟩ := hs
    exact ⟨cp, hcp, by rw [hw, hwc], hsrc, hts⟩
  · intro hsh hL
    have hnd : needDir t.layouts_.layoutOf rj.base.opcode k v = none := by
      simp [needDir, hsh, hL]
    obtain ⟨w, hw, hs⟩ := hslots rb hrb rj hj k v hkv
    simp only [slotOk, hnd] at hs
    rw [hw, hs]
  · intro hsh hL
    have hnd : needDir t.layouts_.layoutOf rj.base.opcode k v = none := by
      simp [needDir, hsh, hL]
    obtain ⟨w, hw, hs⟩ := hslots rb hrb rj hj k v hkv
    simp only [slotOk, hnd] at hs
    rw [hw, hs]

/-- C6: running the transform with asynchronous copies enabled versus
disabled over the same module yields the same rewired blocks, the same
memo and deduplication decisions, and inserted copies that differ only in
the blocking kind of `to_shared` copies. -/
theorem cts_async_isolation (l : layouts) (m : module) : C6Prop l m := by
  obtain ⟨hb, hn, hm, hi⟩ := transform_async l true m
  obtain ⟨-, -, -, hT, -⟩ := transform_spec ⟨l, true⟩ m
  obtain ⟨-, -, -, hF, -⟩ := transform_spec ⟨l, false⟩ m
  refine ⟨hb, hn, hm, hi, ?_, ?_⟩
  · intro cp hc
    have := (hT cp hc).2.2
    simpa using this
  · intro cp hc
    have := (hF cp hc).2.2
    simpa using this

/-- C9: the copy-insertion transform keeps every block, its id, its
successor edges and its original instructions in order — the module is
mutated only by inserting copy instructions and rewiring operand edges,
and the control-flow-graph structure is unchanged. -/
theorem cts_frame_preservation (t : cts) (m : module) : C9Prop t m := by
  obtain ⟨-, hskel, -⟩ := transform_spec t m
  refine ⟨hskel, ?_⟩
  rw [← hskel]
  unfold cts.run
  dsimp only
  rw [List.map_map, List.map_map]
  rfl

/-- C10: the constructor's `use_async` parameter defaults to `false`, so
a transform built from a layouts analysis alone is the same object as one
built with an explicit `false`, rewrites every module identically, and
all copies it emits are the blocking kind. -/
theorem cts_default_sync (l : layouts) (m : module) : C10Prop l m := by
  refine ⟨rfl, rfl, rfl, ?_⟩
  obtain ⟨-, -, -, hT, -⟩ := transform_spec ⟨l, false⟩ m
  intro cp hc
  have := (hT cp hc).2.2
  simpa using this

/-- C3: every copy the transform inserts for a non-phi consumer slot is
placed immediately before that consuming instruction, which consumes the
copy's source, with no rewired use earlier in the block and the source's
in-block definition strictly before the insertion point; every copy for a
phi-node's i-th operand slot is appended at the end of the i-th
predecessor block instead; and every rewired use sits in the copy's own
dominance-valid insertion context. -/
theorem cts_placement_dominance (t : cts) (m : module) (hssa : ssaOk m = true) :
    C3Prop t m := by
  obtain ⟨hinv, hskel, hlen, hcopies, hslots⟩ := transform_spec t m
  intro cp hc
  obtain ⟨hcid, ⟨rb, hrb, hprov⟩, -⟩ := hcopies cp hc
  refine ⟨?_, ?_, ?_⟩
  · intro p hctx
    refine ⟨?_, ?_⟩
    · have ha := hinv.anchors cp hc
      rw [hctx] at ha
      exact ha
    · rcases hprov with ⟨hctx2, -⟩ | ⟨p2, hctx2, ri, hri, hphi, k, hk, hpred⟩
      · rw [hctx] at hctx2
        cases hctx2
      · rw [hctx] at hctx2
        injection hctx2 with hp2
        subst hp2
        exact ⟨rb, hrb, ri, hri, hphi, k, hk, hpred⟩
  · intro b hctx
    refine ⟨?_, ?_⟩
    · have ha := hinv.anchors cp hc
      rw [hctx] at ha
      exact ha
    · rcases hprov with ⟨hctx2, pre, ri, post, heq, hid, hphi, hsrc, hnoref⟩ |
        ⟨p2, hctx2, -⟩
      · rw [hctx] at hctx2
        injection hctx2 with hb
        refine ⟨rb, hrb, hb.symm, pre, ri, post, heq, hid, hphi, hsrc, hnoref, ?_⟩
        intro q hq
        have hbin : basic_block.mk rb.bid (rb.insts.map RInst.base) rb.succs
            ∈ m.blocks := by
          rw [← hskel]
          exact List.mem_map_of_mem _ hrb
        have hget : (rb.insts.map RInst.base).get? pre.length = some ri.base := by
          rw [heq, List.map_append, List.map_cons]
          have hgc := get?_append_cons (pre.map RInst.base) ri.base (post.map RInst.base)
          rwa [List.length_map] at hgc
        exact ssaOk_spec hssa _ hbin pre.length ri.base hget hphi cp.src hsrc q hq
      · rw [hctx] at hctx2
        cases hctx2
  · intro rb2 hrb2 rj2 hj2 k2 w hw hwc
    subst hwc
    have hk2 : k2 < rj2.base.ops.length := by
      have h1 : k2 < rj2.newOps.length := (List.get?_eq_some.mp hw).1
      rwa [hlen rb2 hrb2 rj2 hj2] at h1
    obtain ⟨v2, hv2⟩ : ∃ v2, rj2.base.ops.get? k2 = some v2 := by
      rw [List.get?_eq_get hk2]
      exact ⟨_, rfl⟩
    obtain ⟨w2, hw2, hs2⟩ := hslots rb2 hrb2 rj2 hj2 k2 v2 hv2
    rw [hw] at hw2
    injection hw2 with hww
    cases hnd : needDir t.layouts_.layoutOf rj2.base.opcode k2 v2 with
    | none =>
      exfalso
      simp only [slotOk, hnd] at hs2
      have hvm : v2 ≤ maxId m :=
        op_le_maxId (base_mem_allInsts hskel hrb2 hj2) (List.get?_mem hv2)
      rw [hww, hs2] at hcid
      omega
    | some dir =>
      simp only [slotOk, hnd] at hs2
      obtain ⟨cp2, hcp2, hw2c, hsrc2, hts2, hctx2⟩ := hs2
      have he : cp2 = cp := hinv.cid_inj hcp2 hc (by rw [← hw2c, ← hww])
      rw [← hctx2, he]

/-! ### Claim theorems for the pipeline driver and the analyses -/

/-- C4: the driver returns the lowering of the module produced by the
whole alignment → layout → copy-insertion sequence, and when the
out-of-scope lowering fails, no module, no footprint and no analyses are
returned — never a partially transformed result. -/
theorem add_passes_abort_on_failure {α : Type} (lower : module → Option α)
    (sz : Nat → Nat) (m : module) (ns : Nat) (wl wa : Bool) :
    (lower (driverRewritten m ns) = none →
      add_passes_to_emit_bin lower sz m ns wl wa = none) ∧
    (∀ r, add_passes_to_emit_bin lower sz m ns wl wa = some r →
      lower (driverRewritten m ns) = some r.bin) := by
  unfold add_passes_to_emit_bin driverRewritten cts.run
  dsimp only
  cases h : lower (module.mk (((driverCts m ns).transform m).blocks.map
      (materializeBlock ((driverCts m ns).transform m).state.inserted))) with
  | none =>
    refine ⟨fun _ => rfl, ?_⟩
    intro r hr
    cases hr
  | some bin =>
    refine ⟨?_, ?_⟩
    · intro hh
      cases hh
    · intro r hr
      injection hr with hr2
      rw [← hr2]

/-- C5: on every successful driver run, the reported static shared-memory
footprint equals the sum of the byte sizes of the distinct
post-deduplication shared-layout allocations of the rewritten module, and
that allocation list has no duplicates — a copy reused by several
consumers is counted once. -/
theorem add_passes_footprint {α : Type} (lower : module → Option α)
    (sz : Nat → Nat) (m : module) (ns : Nat) (wl wa : Bool) (r : DriverOut α)
    (h : add_passes_to_emit_bin lower sz m ns wl wa = some r) :
    r.shared_static =
      ((sharedAllocList m ((driverCts m ns).transform m)
          (driverLayouts m).layoutOf).map sz).sum ∧
    (sharedAllocList m ((driverCts m ns).transform m)
        (driverLayouts m).layoutOf).Nodup := by
  refine ⟨?_, by unfold sharedAllocList; exact List.nodup_dedup _⟩
  unfold add_passes_to_emit_bin at h
  dsimp only at h
  cases hl : lower (module.mk (((driverCts m ns).transform m).blocks.map
      (materializeBlock ((driverCts m ns).transform m).state.inserted))) with
  | none =>
    rw [hl] at h
    cases h
  | some bin =>
    rw [hl] at h
    injection h with h2
    rw [← h2]
    rfl

/-- C7: the alignment and layout analyses are total and never fail — when
no fact is derivable for a value (in particular for leaf values with no
defining instruction) the alignment degrades to the conservative default
`⟨1, 1⟩`, and a value whose layout group receives no forced demand
resolves to the distributed default. -/
theorem analyses_total_default (m : module) (v : Nat) (a : align) (l0 : layouts) :
    (alignFix m v = none → align.factOf (align.run m a) v = defaultFact) ∧
    (defOf m v = none → alignFix m v = none) ∧
    ((compOf m v).all (fun w => !demandsShared m w && !demandsMma m w) = true →
       layouts.layoutOf (layouts.run m l0) v = Layout.distributed) := by
  refine ⟨?_, ?_, ?_⟩
  · intro h
    unfold align.factOf align.run
    dsimp only
    rw [h]
    rfl
  · intro h
    unfold alignFix
    simp only [alignFixAux, alignStep, h]
  · intro h
    have h1 : (compOf m v).any (fun w => demandsShared m w) = false := by
      rw [List.any_eq_false]
      intro w hw
      have h2 := List.all_eq_true.mp h w hw
      simp only [Bool.and_eq_true, Bool.not_eq_true'] at h2
      simp [h2.1]
    have h2 : (compOf m v).any (fun w => demandsMma m w) = false := by
      rw [List.any_eq_false]
      intro w hw
      have h3 := List.all_eq_true.mp h w hw
      simp only [Bool.and_eq_true, Bool.not_eq_true'] at h3
      simp [h3.2]
    unfold layouts.layoutOf layouts.run resolveLayout
    dsimp only
    simp [h1, h2]

/-- C8: the analyses are deterministic recomputations of the module, so a
second run on the unchanged module produces exactly the facts, layout
descriptors and group identifiers of the first run, whatever state the
analysis objects started from. -/
theorem analyses_idempotent (m : module) (a a2 : align) (l l2 : layouts) :
    align.run m (align.run m a) = align.run m a ∧
    layouts.run m (layouts.run m l) = layouts.run m l ∧
    align.run m a = align.run m a2 ∧
    layouts.run m l = layouts.run m l2 ∧
    (align.run m (align.run m a)).facts = (align.run m a).facts ∧
    (layouts.run m (layouts.run m l)).assign = (layouts.run m l).assign ∧
    (layouts.run m (layouts.run m l)).group = (layouts.run m l).group :=
  ⟨rfl, rfl, rfl, rfl, rfl, rfl, rfl⟩

/-! ### Witnesses on the example module -/

theorem cts_memo_dedup_witness : C1Prop ⟨exLayouts, false⟩ exMod :=
  cts_memo_dedup ⟨exLayouts, false⟩ exMod

theorem cts_direction_correct_witness : C2Prop ⟨exLayouts, false⟩ exMod :=
  cts_direction_correct ⟨exLayouts, false⟩ exMod

theorem cts_placement_dominance_witness :
    ssaOk exMod = true ∧ C3Prop ⟨exLayouts, false⟩ exMod :=
  ⟨by decide, cts_placement_dominance ⟨exLayouts, false⟩ exMod (by decide)⟩

theorem add_passes_abort_on_failure_witness :
    add_passes_to_emit_bin (fun _ : module => (none : Option Nat)) (fun _ => 4)
      exMod 1 false false = none :=
  (add_passes_abort_on_failure (fun _ : module => (none : Option Nat)) (fun _ => 4)
    exMod 1 false false).1 rfl

theorem add_passes_footprint_witness :
    (DriverOut.mk (driverRewritten exMod 1) 16 (none : Option layouts)
        (none : Option align)).shared_static =
      ((sharedAllocList exMod ((driverCts exMod 1).transform exMod)
          (driverLayouts exMod).layoutOf).map (fun _ => 4)).sum ∧
    (sharedAllocList exMod ((driverCts exMod 1).transform exMod)
        (driverLayouts exMod).layoutOf).Nodup :=
  add_passes_footprint (fun mm : module => some mm) (fun _ => 4) exMod 1 false false
    (DriverOut.mk (driverRewritten exMod 1) 16 none none) (by rfl)

theorem cts_async_isolation_witness : C6Prop exLayouts exMod :=
  cts_async_isolation exLayouts exMod

theorem analyses_total_default_witness :
    alignFix exMod 2 = none ∧
    align.factOf (align.run exMod align.initial) 2 = defaultFact ∧
    (compOf exMod 1).all
        (fun w => !demandsShared exMod w && !demandsMma exMod w) = true ∧
    layouts.layoutOf (layouts.run exMod layouts.initial) 1 = Layout.distributed :=
  ⟨by decide,
   (analyses_total_default exMod 2 align.initial layouts.initial).1 (by decide),
   by decide,
   (analyses_total_default exMod 1 align.initial layouts.initial).2.2 (by decide)⟩

theorem analyses_idempotent_witness :
    align.run exMod (align.run exMod align.initial) = align.run exMod align.initial ∧
    layouts.run exMod (layouts.run exMod layouts.initial) =
      layouts.run exMod layouts.initial :=
  ⟨(analyses_idempotent exMod align.initial align.initial
      layouts.initial layouts.initial).1,
   (analyses_idempotent exMod align.initial align.initial
      layouts.initial layouts.initial).2.1⟩

theorem cts_frame_preservation_witness : C9Prop ⟨exLayouts, true⟩ exMod :=
  cts_frame_preservation ⟨exLayouts, true⟩ exMod

theorem cts_default_sync_witness : C10Prop exLayouts exMod :=
  cts_default_sync exLayouts exMod

end Triton

